import Mathlib

/-!
Verification of the Triton tutorial `03-matrix-multiplication.ipynb`
(blocked, tile-parallel dense GEMM with grouped launch ordering,
boundary masking, fused activation, host wrapper and autotune catalog).

The kernel is embedded shallowly:

* element values are exact rationals (`Val := ℚ`), the idealization of the
  kernel's floating-point values; the dtype discipline (fp32 accumulation,
  fp16 storage) is modelled separately at the type level;
* the A, B and C buffers are flat address spaces `ℕ → Val`, and every address
  is computed exactly as the kernel computes its pointers
  (`base + index * stride`);
* per-program quantities (`pid`, block indices, offsets) are `ℕ`; every value
  the launched kernel manipulates is nonnegative, and the one subtraction the
  source performs that could go negative in a wider range
  (`K - k * BLOCK_SIZE_K` in the load mask) is modelled over `ℤ`, exactly as
  the 32-bit signed arithmetic of the source;
* `tl.store` with a mask is denoted by the function that maps an address to
  the value of the lane whose (address, mask) pair hits it, and the grid
  launch is the fold of all program instances over the flat pid range.
-/

/-- Ceiling division, `triton.cdiv(a, b) = (a + b - 1) // b`. -/
def cdiv (a b : ℕ) : ℕ := (a + b - 1) / b

/-- Element values: exact rationals standing for the kernel's floating-point
values. -/
abbrev Val := ℚ

/-- One autotune configuration (`triton.Config`): the tile meta-parameters
plus the scheduling hints `num_stages`/`num_warps` (the HIP catalog's extra
`waves_per_eu` hint is not modelled; like the other two hints it never
reaches the kernel arithmetic). -/
structure Config where
  BLOCK_SIZE_M : ℕ
  BLOCK_SIZE_N : ℕ
  BLOCK_SIZE_K : ℕ
  GROUP_SIZE_M : ℕ
  num_stages : ℕ
  num_warps : ℕ
deriving DecidableEq, Repr

/-- All tile parameters of a configuration are positive (true of every
catalog entry; the correctness theorems assume it). -/
def Config.ok (c : Config) : Prop :=
  0 < c.BLOCK_SIZE_M ∧ 0 < c.BLOCK_SIZE_N ∧ 0 < c.BLOCK_SIZE_K ∧
    0 < c.GROUP_SIZE_M

instance (c : Config) : Decidable c.ok := by
  unfold Config.ok; infer_instance

/-- The CUDA autotune catalog (`get_cuda_autotune_config`). -/
def get_cuda_autotune_config : List Config :=
  [⟨128, 256, 64, 8, 3, 8⟩, ⟨64, 256, 32, 8, 4, 4⟩, ⟨128, 128, 32, 8, 4, 4⟩,
   ⟨128, 64, 32, 8, 4, 4⟩, ⟨64, 128, 32, 8, 4, 4⟩, ⟨128, 32, 32, 8, 4, 4⟩,
   ⟨64, 32, 32, 8, 5, 2⟩, ⟨32, 64, 32, 8, 5, 2⟩, ⟨128, 256, 128, 8, 3, 8⟩,
   ⟨256, 128, 128, 8, 3, 8⟩, ⟨256, 64, 128, 8, 4, 4⟩, ⟨64, 256, 128, 8, 4, 4⟩,
   ⟨128, 128, 128, 8, 4, 4⟩, ⟨128, 64, 64, 8, 4, 4⟩, ⟨64, 128, 64, 8, 4, 4⟩,
   ⟨128, 32, 64, 8, 4, 4⟩]

/-- The HIP autotune catalog (`get_hip_autotune_config`). -/
def get_hip_autotune_config : List Config :=
  [⟨128, 256, 16, 1, 2, 4⟩, ⟨256, 256, 16, 4, 2, 8⟩, ⟨128, 128, 32, 1, 2, 8⟩,
   ⟨64, 128, 32, 8, 2, 4⟩, ⟨64, 64, 32, 1, 2, 4⟩]

/-- The grouped launch-grid mapping at the top of `matmul_kernel`: from the
flat `pid = tl.program_id(axis=0)` to the tile coordinate `(pid_m, pid_n)`,
via `num_pid_in_group`, `group_id`, `first_pid_m` and the clamped
`group_size_m`. -/
def gridMap (num_pid_m num_pid_n GROUP_SIZE_M pid : ℕ) : ℕ × ℕ :=
  let num_pid_in_group := GROUP_SIZE_M * num_pid_n
  let group_id := pid / num_pid_in_group
  let first_pid_m := group_id * GROUP_SIZE_M
  let group_size_m := min (num_pid_m - first_pid_m) GROUP_SIZE_M
  let pid_m := first_pid_m + ((pid % num_pid_in_group) % group_size_m)
  let pid_n := (pid % num_pid_in_group) / group_size_m
  (pid_m, pid_n)

/-- Inverse of `gridMap` on the launched range: the flat pid that the grouped
ordering assigns to tile `(tm, tn)` (used to state and prove the bijection;
not part of the source, which only needs the forward direction). -/
def pidOfTile (num_pid_m num_pid_n GROUP_SIZE_M tm tn : ℕ) : ℕ :=
  tm / GROUP_SIZE_M * (GROUP_SIZE_M * num_pid_n) +
    tn * min (num_pid_m - tm / GROUP_SIZE_M * GROUP_SIZE_M) GROUP_SIZE_M +
    tm % GROUP_SIZE_M

/-- The fused activation `leaky_relu(x) = tl.where(x >= 0, x, 0.01 * x)`
(0.01 is the exact rational 1/100 in this idealization). -/
def leaky_relu (x : Val) : Val := if 0 ≤ x then x else (1 / 100) * x

/-- The `ACTIVATION` dispatch inside the kernel epilogue:
`if ACTIVATION == "leaky_relu": accumulator = leaky_relu(accumulator)`;
any other selector leaves the accumulator unchanged. -/
def applyActivation (s : String) (x : Val) : Val :=
  if s = "leaky_relu" then leaky_relu x else x

/-- The run-time arguments of `matmul_kernel`: the A/B buffers, the problem
dimensions, the six strides and the activation selector. -/
structure KernelArgs where
  a_mem : ℕ → Val
  b_mem : ℕ → Val
  M : ℕ
  N : ℕ
  K : ℕ
  stride_am : ℕ
  stride_ak : ℕ
  stride_bk : ℕ
  stride_bn : ℕ
  stride_cm : ℕ
  stride_cn : ℕ
  ACTIVATION : String

/-- The A-tile load at loop step `k`, lane `(i, kk)`:
address `offs_am[i] * stride_am + (offs_k[kk] + k*BLOCK_SIZE_K) * stride_ak`
with `offs_am[i] = (pid_m*BLOCK_SIZE_M + i) % M` (the pointer advance
`a_ptrs += BLOCK_SIZE_K * stride_ak` accumulated over the first `k` steps),
masked by `offs_k < K - k * BLOCK_SIZE_K` with `other=0.0`. -/
def loadA (args : KernelArgs) (cfg : Config) (pid_m k i kk : ℕ) : Val :=
  if (kk : ℤ) < (args.K : ℤ) - (k : ℤ) * (cfg.BLOCK_SIZE_K : ℤ) then
    args.a_mem (((pid_m * cfg.BLOCK_SIZE_M + i) % args.M) * args.stride_am +
      (kk + k * cfg.BLOCK_SIZE_K) * args.stride_ak)
  else 0

/-- The B-tile load at loop step `k`, lane `(kk, j)`, with
`offs_bn[j] = (pid_n*BLOCK_SIZE_N + j) % N`, masked on the K axis exactly as
`loadA`. -/
def loadB (args : KernelArgs) (cfg : Config) (pid_n k kk j : ℕ) : Val :=
  if (kk : ℤ) < (args.K : ℤ) - (k : ℤ) * (cfg.BLOCK_SIZE_K : ℤ) then
    args.b_mem ((kk + k * cfg.BLOCK_SIZE_K) * args.stride_bk +
      ((pid_n * cfg.BLOCK_SIZE_N + j) % args.N) * args.stride_bn)
  else 0

/-- The accumulator after `t` iterations of the K loop, starting from
`tl.zeros((BLOCK_SIZE_M, BLOCK_SIZE_N), dtype=tl.float32)`; each iteration
performs `accumulator = tl.dot(a, b, accumulator)`, i.e. adds the full
`BLOCK_SIZE_K`-wide dot product of the masked loads. -/
def accLoop (args : KernelArgs) (cfg : Config) (pid_m pid_n : ℕ) :
    ℕ → ℕ → ℕ → Val
  | 0, _, _ => 0
  | t + 1, i, j =>
    accLoop args cfg pid_m pid_n t i j +
      ∑ kk ∈ Finset.range cfg.BLOCK_SIZE_K,
        loadA args cfg pid_m t i kk * loadB args cfg pid_n t kk j

/-- The accumulator after the whole K loop,
`for k in range(0, tl.cdiv(K, BLOCK_SIZE_K))`. -/
def accumulator (args : KernelArgs) (cfg : Config) (pid_m pid_n i j : ℕ) :
    Val :=
  accLoop args cfg pid_m pid_n (cdiv args.K cfg.BLOCK_SIZE_K) i j

/-- The value the epilogue stores for lane `(i, j)`: the accumulator, the
optional fused activation, then `accumulator.to(tl.float16)` — exact
(identity) in this rational-valued idealization; the dtype narrowing is
modelled separately. -/
def cTile (args : KernelArgs) (cfg : Config) (pid_m pid_n i j : ℕ) : Val :=
  applyActivation args.ACTIVATION (accumulator args cfg pid_m pid_n i j)

/-- All local lane indices `(i, j)` of a `BLOCK_SIZE_M × BLOCK_SIZE_N` tile,
row-major. -/
def indexPairs (m n : ℕ) : List (ℕ × ℕ) :=
  (List.range m).flatMap fun i => (List.range n).map fun j => (i, j)

/-- Lane `p` of the masked store hits address `addr`: its destination address
`c_ptr + stride_cm * offs_cm + stride_cn * offs_cn` (with
`offs_cm = pid_m*BLOCK_SIZE_M + i`, `offs_cn = pid_n*BLOCK_SIZE_N + j`,
computed WITHOUT modulo) equals `addr`, and its store mask
`(offs_cm < M) & (offs_cn < N)` holds. -/
def storeHit (args : KernelArgs) (cfg : Config) (pid_m pid_n addr : ℕ)
    (p : ℕ × ℕ) : Bool :=
  decide (args.stride_cm * (pid_m * cfg.BLOCK_SIZE_M + p.1) +
      args.stride_cn * (pid_n * cfg.BLOCK_SIZE_N + p.2) = addr ∧
    pid_m * cfg.BLOCK_SIZE_M + p.1 < args.M ∧
    pid_n * cfg.BLOCK_SIZE_N + p.2 < args.N)

/-- Denotation of `tl.store(c_ptrs, c, mask=c_mask)`: the address written by
some mask-enabled lane takes that lane's value, every other address keeps the
previous contents of the C buffer. -/
def storeTile (args : KernelArgs) (cfg : Config) (pid_m pid_n : ℕ)
    (c_mem : ℕ → Val) : ℕ → Val :=
  fun addr =>
    match (indexPairs cfg.BLOCK_SIZE_M cfg.BLOCK_SIZE_N).find?
        (storeHit args cfg pid_m pid_n addr) with
    | some p => cTile args cfg pid_m pid_n p.1 p.2
    | none => c_mem addr

/-- One program instance of `matmul_kernel`: map `pid` to its tile through
the grouped ordering, run the accumulation loop and the epilogue, and
perform the masked store into the C buffer. -/
def matmul_kernel (args : KernelArgs) (cfg : Config) (pid : ℕ)
    (c_mem : ℕ → Val) : ℕ → Val :=
  storeTile args cfg
    (gridMap (cdiv args.M cfg.BLOCK_SIZE_M) (cdiv args.N cfg.BLOCK_SIZE_N)
      cfg.GROUP_SIZE_M pid).1
    (gridMap (cdiv args.M cfg.BLOCK_SIZE_M) (cdiv args.N cfg.BLOCK_SIZE_N)
      cfg.GROUP_SIZE_M pid).2
    c_mem

/-- The whole 1-D launch: `triton.cdiv(M, BLOCK_SIZE_M) *
triton.cdiv(N, BLOCK_SIZE_N)` program instances folded over the C buffer
(their store regions are disjoint, so any execution order denotes the same
function; the fold fixes one). -/
def launch (args : KernelArgs) (cfg : Config) (c_init : ℕ → Val) : ℕ → Val :=
  (List.range (cdiv args.M cfg.BLOCK_SIZE_M *
      cdiv args.N cfg.BLOCK_SIZE_N)).foldl
    (fun mem pid => matmul_kernel args cfg pid mem) c_init

/-- The kernel arguments exactly as the host wrapper `matmul` passes them for
contiguous row-major tensors: `a.stride(0) = K, a.stride(1) = 1,
b.stride(0) = N, b.stride(1) = 1, c.stride(0) = N, c.stride(1) = 1`. -/
def rowMajorArgs (a_mem b_mem : ℕ → Val) (M N K : ℕ) (ACT : String) :
    KernelArgs :=
  { a_mem := a_mem, b_mem := b_mem, M := M, N := N, K := K,
    stride_am := K, stride_ak := 1, stride_bk := N, stride_bn := 1,
    stride_cm := N, stride_cn := 1, ACTIVATION := ACT }

/-- Element types appearing in the notebook: fp8 (`torch.float8_e5m2`)
and fp16 inputs, fp32 accumulation. -/
inductive DType where
  | float8 : DType
  | float16 : DType
  | float32 : DType
deriving DecidableEq, Repr

/-- Bit width of an element type. -/
def dtypeWidth : DType → ℕ
  | .float8 => 8
  | .float16 => 16
  | .float32 => 32

/-- Input element types the notebook drives the wrapper with (fp16 in the
unit test, fp8_e5m2 in the fp8 test and benchmark). -/
def inputDTypes : List DType := [DType.float16, DType.float8]

/-- The dtype of the freshly initialized accumulator:
`tl.zeros((BLOCK_SIZE_M, BLOCK_SIZE_N), dtype=tl.float32)`. -/
def accInitDType : DType := DType.float32

/-- The dtype of `tl.dot(a, b, acc)`: accumulation happens in the dtype of
the accumulator operand, which it returns. -/
def dotAccDType (acc : DType) : DType := acc

/-- The accumulator dtype after `t` iterations of the K loop. -/
def accDTypeAtStep : ℕ → DType
  | 0 => accInitDType
  | t + 1 => dotAccDType (accDTypeAtStep t)

/-- The storage dtype of the epilogue: `c = accumulator.to(tl.float16)`,
applied once, after the loop and the optional activation. -/
def cStoreDType : DType := DType.float16

/-- A host tensor as the wrapper `matmul` sees it: shape, element type and
contiguity. -/
structure TensorDesc where
  rows : ℕ
  cols : ℕ
  dtype : DType
  contiguous : Bool

/-- What a successful wrapper call produces before any tile runs: the
allocated output descriptor (`torch.empty((M, N), dtype=torch.float16)`) and
the size of the 1-D launch grid. -/
structure LaunchRecord where
  out_rows : ℕ
  out_cols : ℕ
  out_dtype : DType
  grid : ℕ
deriving DecidableEq, Repr

/-- The host wrapper `matmul(a, b, activation)`: `assert a.shape[1] ==
b.shape[0]`, `assert a.is_contiguous()` (a failed assert aborts the call
before any allocation or launch — modelled as `Except.error` carrying the
assert message), then allocate C as an `(M, N)` float16 tensor and dispatch
`triton.cdiv(M, BLOCK_SIZE_M) * triton.cdiv(N, BLOCK_SIZE_N)` work units. -/
def matmul (cfg : Config) (a b : TensorDesc) (activation : String) :
    Except String LaunchRecord :=
  if a.cols ≠ b.rows then .error "Incompatible dimensions"
  else if a.contiguous = false then .error "Matrix A must be contiguous"
  else
    .ok { out_rows := a.rows, out_cols := b.cols, out_dtype := DType.float16,
          grid := cdiv a.rows cfg.BLOCK_SIZE_M * cdiv b.cols cfg.BLOCK_SIZE_N }

/-- Modelled from the spec: the shape-keyed state of the `triton.autotune`
decorator (its implementation lives in the Triton library, not in this
repository): the cache from shape keys `(M, N, K)` to the chosen
`Config`, plus a counter of completed benchmarking sweeps. -/
structure Autotuner where
  cache : List ((ℕ × ℕ × ℕ) × Config)
  benchCount : ℕ

/-- Association lookup in the autotuner cache. -/
def cacheLookup : List ((ℕ × ℕ × ℕ) × Config) → (ℕ × ℕ × ℕ) → Option Config
  | [], _ => none
  | (k, c) :: t, key => if k = key then some c else cacheLookup t key

/-- Modelled from the spec: `select(shape_key, configs)` of the Autotuner
(`triton.autotune(configs=..., key=['M','N','K'])`). On a cache hit the
memoized configuration is returned with no state change; on a miss one
benchmarking sweep (abstracted as `bench`) runs, its winner is cached and the
sweep counter is incremented. -/
def autotuneSelect (bench : ℕ × ℕ × ℕ → Config) (st : Autotuner)
    (key : ℕ × ℕ × ℕ) : Config × Autotuner :=
  match cacheLookup st.cache key with
  | some cfg => (cfg, st)
  | none => (bench key, ⟨(key, bench key) :: st.cache, st.benchCount + 1⟩)

/-- A sequence of further autotuned calls, threading the autotuner state. -/
def runCalls (bench : ℕ × ℕ × ℕ → Config) (st : Autotuner)
    (keys : List (ℕ × ℕ × ℕ)) : Autotuner :=
  keys.foldl (fun s k => (autotuneSelect bench s k).2) st

/-! Arithmetic helpers about `cdiv` and division/remainder decomposition. -/

theorem cdiv_eq_of_pos {a b : ℕ} (ha : 0 < a) (hb : 0 < b) :
    cdiv a b = (a - 1) / b + 1 := by
  unfold cdiv
  have h : a + b - 1 = (a - 1) + b := by omega
  rw [h, Nat.add_div_right _ hb]

theorem le_cdiv_mul (a b : ℕ) (hb : 0 < b) : a ≤ cdiv a b * b := by
  rcases Nat.eq_zero_or_pos a with ha | ha
  · subst ha; exact Nat.zero_le _
  · rw [cdiv_eq_of_pos ha hb]
    have h2 := Nat.div_add_mod (a - 1) b
    have h3 : (a - 1) % b < b := Nat.mod_lt _ hb
    have h4 : ((a - 1) / b + 1) * b = b * ((a - 1) / b) + b := by ring
    omega

theorem mul_lt_of_lt_cdiv {a b r : ℕ} (hb : 0 < b) (hr : r < cdiv a b) :
    r * b < a := by
  have ha : 0 < a := by
    by_contra hcon
    have ha0 : a = 0 := by omega
    subst ha0
    have hz : cdiv 0 b = 0 := by
      unfold cdiv; exact Nat.div_eq_of_lt (by omega)
    omega
  rw [cdiv_eq_of_pos ha hb] at hr
  have h2 : r ≤ (a - 1) / b := by omega
  have h3 : r * b ≤ a - 1 := (Nat.le_div_iff_mul_le hb).mp h2
  exact lt_of_le_of_lt h3 (Nat.sub_lt ha Nat.one_pos)

theorem lt_cdiv_of_lt_mul {a b r : ℕ} (hb : 0 < b) (hr : r < a) :
    r / b < cdiv a b := by
  have ha : 0 < a := lt_of_le_of_lt (Nat.zero_le _) hr
  rw [cdiv_eq_of_pos ha hb]
  have h1 : r / b ≤ (a - 1) / b := Nat.div_le_div_right (by omega)
  omega

/-- The load mask `offs_k < K - k * BLOCK_SIZE_K` (signed arithmetic) as a
statement over `ℕ`. -/
theorem maskK_iff (kk k BK K : ℕ) :
    ((kk : ℤ) < (K : ℤ) - (k : ℤ) * (BK : ℤ)) ↔ kk + k * BK < K := by omega

/-- Quotient and remainder of `q * D + u` when `u < D`. -/
theorem div_mod_mul_add {D q u : ℕ} (hD : 0 < D) (hu : u < D) :
    (q * D + u) / D = q ∧ (q * D + u) % D = u := by
  constructor
  · rw [Nat.mul_comm q D, Nat.mul_add_div hD, Nat.div_eq_of_lt hu,
      Nat.add_zero]
  · rw [Nat.mul_comm q D, Nat.mul_add_mod, Nat.mod_eq_of_lt hu]

/-! The grouped launch-grid mapping is a bijection on the launched range. -/

theorem gridMap_fst (npm npn G pid : ℕ) :
    (gridMap npm npn G pid).1 =
      pid / (G * npn) * G +
        pid % (G * npn) % min (npm - pid / (G * npn) * G) G := rfl

theorem gridMap_snd (npm npn G pid : ℕ) :
    (gridMap npm npn G pid).2 =
      pid % (G * npn) / min (npm - pid / (G * npn) * G) G := rfl

/-- Every launched pid is mapped to a tile coordinate inside the grid. -/
theorem gridMap_mem {npm npn G pid : ℕ} (hG : 0 < G)
    (hpid : pid < npm * npn) :
    (gridMap npm npn G pid).1 < npm ∧ (gridMap npm npn G pid).2 < npn := by
  have hnpn : 0 < npn := by
    rcases Nat.eq_zero_or_pos npn with h | h
    · exfalso; rw [h, Nat.mul_zero] at hpid; exact Nat.not_lt_zero _ hpid
    · exact h
  have hnpg : 0 < G * npn := Nat.mul_pos hG hnpn
  rw [gridMap_fst, gridMap_snd]
  set q := pid / (G * npn) with hq
  set r := pid % (G * npn) with hr
  have hdm : G * npn * q + r = pid := Nat.div_add_mod pid (G * npn)
  have hrlt : r < G * npn := Nat.mod_lt _ hnpg
  have hqG : q * G < npm := by
    by_contra hcon
    push_neg at hcon
    have h1 : npm * npn ≤ q * G * npn := Nat.mul_le_mul_right npn hcon
    have h2 : q * G * npn = G * npn * q := by ring
    have h3 : G * npn * q ≤ pid := by omega
    exact lt_irrefl _ (lt_of_lt_of_le hpid (le_trans (h2 ▸ h1) h3))
  set gsm := min (npm - q * G) G with hgsm
  have hgsm0 : 0 < gsm := lt_min (by omega) hG
  have hgsmle : gsm ≤ npm - q * G := min_le_left _ _
  constructor
  · have h5 : r % gsm < gsm := Nat.mod_lt _ hgsm0
    omega
  · rcases le_or_lt G (npm - q * G) with hcase | hcase
    · have hgg : gsm = G := min_eq_right hcase
      rw [hgg]
      have h6 : r < npn * G := by
        calc r < G * npn := hrlt
          _ = npn * G := Nat.mul_comm _ _
      exact (Nat.div_lt_iff_lt_mul hG).mpr h6
    · have hgg : gsm = npm - q * G := min_eq_left (le_of_lt hcase)
      have hkey : G * npn * q + r < npm * npn := by omega
      have h6 : r < npn * gsm := by
        rw [hgg]
        have e1 : npn * (npm - q * G) + npn * (q * G) = npn * npm := by
          rw [← Nat.mul_add, Nat.sub_add_cancel (le_of_lt hqG)]
        have e2 : npn * (q * G) = G * npn * q := by ring
        have e3 : npn * npm = npm * npn := Nat.mul_comm _ _
        omega
      exact (Nat.div_lt_iff_lt_mul hgsm0).mpr h6

/-- `pidOfTile` is a right inverse of `gridMap` on the launched pid range. -/
theorem pidOfTile_gridMap {npm npn G pid : ℕ} (hG : 0 < G)
    (hpid : pid < npm * npn) :
    pidOfTile npm npn G (gridMap npm npn G pid).1
      (gridMap npm npn G pid).2 = pid := by
  have hnpn : 0 < npn := by
    rcases Nat.eq_zero_or_pos npn with h | h
    · exfalso; rw [h, Nat.mul_zero] at hpid; exact Nat.not_lt_zero _ hpid
    · exact h
  have hnpg : 0 < G * npn := Nat.mul_pos hG hnpn
  rw [gridMap_fst, gridMap_snd]
  set q := pid / (G * npn) with hq
  set r := pid % (G * npn) with hr
  have hdm : G * npn * q + r = pid := Nat.div_add_mod pid (G * npn)
  have hrlt : r < G * npn := Nat.mod_lt _ hnpg
  have hqG : q * G < npm := by
    by_contra hcon
    push_neg at hcon
    have h1 : npm * npn ≤ q * G * npn := Nat.mul_le_mul_right npn hcon
    have h2 : q * G * npn = G * npn * q := by ring
    have h3 : G * npn * q ≤ pid := by omega
    exact lt_irrefl _ (lt_of_lt_of_le hpid (le_trans (h2 ▸ h1) h3))
  set gsm := min (npm - q * G) G with hgsm
  have hgsm0 : 0 < gsm := lt_min (by omega) hG
  have hsgsm : r % gsm < gsm := Nat.mod_lt _ hgsm0
  have hsG : r % gsm < G := lt_of_lt_of_le hsgsm (min_le_right _ _)
  unfold pidOfTile
  have e1 : (q * G + r % gsm) / G = q := (div_mod_mul_add hG hsG).1
  have e2 : (q * G + r % gsm) % G = r % gsm := (div_mod_mul_add hG hsG).2
  rw [e1, e2, ← hgsm]
  have e3 : gsm * (r / gsm) + r % gsm = r := Nat.div_add_mod r gsm
  have c1 : q * (G * npn) = G * npn * q := Nat.mul_comm _ _
  have c2 : r / gsm * gsm = gsm * (r / gsm) := Nat.mul_comm _ _
  omega

/-- The canonical decomposition of `pidOfTile` used by the range and
left-inverse lemmas. -/
theorem pidOfTile_form {npm npn G tm tn : ℕ} :
    pidOfTile npm npn G tm tn =
      tm / G * (G * npn) +
        (tn * min (npm - tm / G * G) G + tm % G) := by
  unfold pidOfTile
  omega

/-- `pidOfTile` lands inside the launched pid range. -/
theorem pidOfTile_lt {npm npn G tm tn : ℕ} (hG : 0 < G) (htm : tm < npm)
    (htn : tn < npn) : pidOfTile npm npn G tm tn < npm * npn := by
  set gid := tm / G with hgid
  set s := tm % G with hs
  have hdm : G * gid + s = tm := Nat.div_add_mod tm G
  have hsG : s < G := Nat.mod_lt _ hG
  have c1 : gid * G = G * gid := Nat.mul_comm _ _
  set gsm := min (npm - gid * G) G with hgsm
  have h0 : 0 < npm - gid * G := by omega
  have hgsm0 : 0 < gsm := lt_min h0 hG
  have hsgsm : s < gsm := by
    have h1 : s < npm - gid * G := by omega
    exact lt_min h1 hsG
  have hu1 : tn * gsm + s < npn * gsm := by
    have h1 : tn * gsm + gsm ≤ npn * gsm := by
      have h2 : (tn + 1) * gsm ≤ npn * gsm :=
        Nat.mul_le_mul_right gsm (Nat.succ_le_of_lt htn)
      have h3 : tn * gsm + gsm = (tn + 1) * gsm := by ring
      omega
    omega
  rw [pidOfTile_form, ← hgid, ← hgsm, ← hs]
  rcases le_or_lt G (npm - gid * G) with hcase | hcase
  · have hgg : gsm = G := min_eq_right hcase
    have hstep : (gid + 1) * G ≤ npm := by
      have h1 : gid * G + G ≤ npm := by omega
      have h2 : (gid + 1) * G = gid * G + G := by ring
      omega
    have h2 : (gid + 1) * G * npn ≤ npm * npn := Nat.mul_le_mul_right npn hstep
    have hu2 : npn * gsm ≤ G * npn := by
      calc npn * gsm ≤ npn * G := Nat.mul_le_mul_left npn (min_le_right _ _)
        _ = G * npn := Nat.mul_comm _ _
    have e : (gid + 1) * G * npn = gid * (G * npn) + G * npn := by ring
    omega
  · have hgg : gsm = npm - gid * G := min_eq_left (le_of_lt hcase)
    have h4 : tn * gsm + s < npn * (npm - gid * G) := by rw [← hgg]; exact hu1
    have e1 : npn * (npm - gid * G) + npn * (gid * G) = npn * npm := by
      rw [← Nat.mul_add, Nat.sub_add_cancel (by omega : gid * G ≤ npm)]
    have e2 : npn * (gid * G) = gid * (G * npn) := by ring
    have e3 : npn * npm = npm * npn := Nat.mul_comm _ _
    omega

/-- `pidOfTile` is a left inverse of `gridMap`: the pid it assigns to an
in-range tile is mapped back to that tile. -/
theorem gridMap_pidOfTile {npm npn G tm tn : ℕ} (hG : 0 < G) (htm : tm < npm)
    (htn : tn < npn) :
    gridMap npm npn G (pidOfTile npm npn G tm tn) = (tm, tn) := by
  have hnpn : 0 < npn := lt_of_le_of_lt (Nat.zero_le _) htn
  have hnpg : 0 < G * npn := Nat.mul_pos hG hnpn
  set gid := tm / G with hgid
  set s := tm % G with hs
  have hdm : G * gid + s = tm := Nat.div_add_mod tm G
  have hsG : s < G := Nat.mod_lt _ hG
  have c1 : gid * G = G * gid := Nat.mul_comm _ _
  set gsm := min (npm - gid * G) G with hgsm
  have h0 : 0 < npm - gid * G := by omega
  have hgsm0 : 0 < gsm := lt_min h0 hG
  have hsgsm : s < gsm := by
    have h1 : s < npm - gid * G := by omega
    exact lt_min h1 hsG
  have hu1 : tn * gsm + s < npn * gsm := by
    have h1 : (tn + 1) * gsm ≤ npn * gsm :=
      Nat.mul_le_mul_right gsm (Nat.succ_le_of_lt htn)
    have h2 : (tn + 1) * gsm = tn * gsm + gsm := by ring
    omega
  have hu2 : npn * gsm ≤ G * npn := by
    calc npn * gsm ≤ npn * G := Nat.mul_le_mul_left npn (min_le_right _ _)
      _ = G * npn := Nat.mul_comm _ _
  have hu : tn * gsm + s < G * npn := lt_of_lt_of_le hu1 hu2
  have ediv : pidOfTile npm npn G tm tn / (G * npn) = gid := by
    rw [pidOfTile_form, ← hgid, ← hgsm, ← hs]
    exact (div_mod_mul_add hnpg hu).1
  have emod : pidOfTile npm npn G tm tn % (G * npn) = tn * gsm + s := by
    rw [pidOfTile_form, ← hgid, ← hgsm, ← hs]
    exact (div_mod_mul_add hnpg hu).2
  have efst : (gridMap npm npn G (pidOfTile npm npn G tm tn)).1 = tm := by
    rw [gridMap_fst, ediv, emod, ← hgsm]
    have e2 : (tn * gsm + s) % gsm = s := (div_mod_mul_add hgsm0 hsgsm).2
    rw [e2]
    omega
  have esnd : (gridMap npm npn G (pidOfTile npm npn G tm tn)).2 = tn := by
    rw [gridMap_snd, ediv, emod, ← hgsm]
    exact (div_mod_mul_add hgsm0 hsgsm).1
  exact Prod.ext efst esnd

/-- Each in-range tile is produced by exactly one launched pid. -/
theorem gridMap_existsUnique {npm npn G tm tn : ℕ} (hG : 0 < G)
    (htm : tm < npm) (htn : tn < npn) :
    ∃! pid, pid < npm * npn ∧ gridMap npm npn G pid = (tm, tn) := by
  refine ⟨pidOfTile npm npn G tm tn,
    ⟨pidOfTile_lt hG htm htn, gridMap_pidOfTile hG htm htn⟩, ?_⟩
  rintro pid ⟨hlt, heq⟩
  have h := pidOfTile_gridMap hG hlt
  rw [heq] at h
  exact h.symm

/-! The accumulation loop computes the logically truncated K sum. -/

/-- The mathematically ideal contribution of reduction position `k` to
accumulator lane `(i, j)`: the product of the A element at logical row
`offs_am[i]`, column `k` and the B element at row `k`, column `offs_bn[j]`,
read through the kernel's strided address formulas. -/
def prodElem (args : KernelArgs) (cfg : Config) (pid_m pid_n i j k : ℕ) :
    Val :=
  args.a_mem (((pid_m * cfg.BLOCK_SIZE_M + i) % args.M) * args.stride_am +
      k * args.stride_ak) *
    args.b_mem (k * args.stride_bk +
      ((pid_n * cfg.BLOCK_SIZE_N + j) % args.N) * args.stride_bn)

/-- A sum of bounded-guarded terms over a range truncates the range. -/
theorem sum_range_ite (f : ℕ → Val) (n c : ℕ) :
    (∑ kk ∈ Finset.range n, if kk < c then f kk else 0) =
      ∑ kk ∈ Finset.range (min n c), f kk := by
  induction n with
  | zero => simp
  | succ n ih =>
    rw [Finset.sum_range_succ, ih]
    rcases lt_or_ge n c with h | h
    · rw [if_pos h]
      have h1 : min (n + 1) c = min n c + 1 := by omega
      have h2 : min n c = n := by omega
      rw [h1, Finset.sum_range_succ, h2]
    · rw [if_neg (by omega), add_zero]
      have h1 : min (n + 1) c = min n c := by omega
      rw [h1]

/-- The product of the two K-masked loads: the masks coincide, out-of-extent
lanes contribute the additive identity, in-extent lanes contribute the ideal
product of step position `t * BLOCK_SIZE_K + kk`. -/
theorem load_mul_load (args : KernelArgs) (cfg : Config)
    (pid_m pid_n t i j kk : ℕ) :
    loadA args cfg pid_m t i kk * loadB args cfg pid_n t kk j =
      if kk < args.K - t * cfg.BLOCK_SIZE_K then
        prodElem args cfg pid_m pid_n i j (t * cfg.BLOCK_SIZE_K + kk)
      else 0 := by
  unfold loadA loadB prodElem
  by_cases h : (kk : ℤ) < (args.K : ℤ) - (t : ℤ) * (cfg.BLOCK_SIZE_K : ℤ)
  · have hn : kk + t * cfg.BLOCK_SIZE_K < args.K :=
      (maskK_iff kk t cfg.BLOCK_SIZE_K args.K).mp h
    rw [if_pos h, if_pos h, if_pos (by omega),
      Nat.add_comm kk (t * cfg.BLOCK_SIZE_K)]
  · have hn2 : ¬ kk < args.K - t * cfg.BLOCK_SIZE_K := by
      intro hc
      exact h ((maskK_iff kk t cfg.BLOCK_SIZE_K args.K).mpr (by omega))
    rw [if_neg h, if_neg h, if_neg hn2, zero_mul]

/-- After `t` iterations the accumulator lane `(i, j)` holds exactly the sum
of the first `min K (t * BLOCK_SIZE_K)` ideal products: the K-masked trailing
partial tile contributes precisely what the logically truncated tile
would. -/
theorem accLoop_eq (args : KernelArgs) (cfg : Config) (pid_m pid_n i j : ℕ) :
    ∀ t, accLoop args cfg pid_m pid_n t i j =
      ∑ k ∈ Finset.range (min args.K (t * cfg.BLOCK_SIZE_K)),
        prodElem args cfg pid_m pid_n i j k := by
  intro t
  induction t with
  | zero => simp [accLoop]
  | succ t ih =>
    rw [show accLoop args cfg pid_m pid_n (t + 1) i j =
        accLoop args cfg pid_m pid_n t i j +
          ∑ kk ∈ Finset.range cfg.BLOCK_SIZE_K,
            loadA args cfg pid_m t i kk * loadB args cfg pid_n t kk j
      from rfl, ih]
    have hsum2 :
        (∑ kk ∈ Finset.range cfg.BLOCK_SIZE_K,
          loadA args cfg pid_m t i kk * loadB args cfg pid_n t kk j) =
        ∑ kk ∈ Finset.range
            (min cfg.BLOCK_SIZE_K (args.K - t * cfg.BLOCK_SIZE_K)),
          prodElem args cfg pid_m pid_n i j (t * cfg.BLOCK_SIZE_K + kk) := by
      rw [← sum_range_ite
        (fun kk => prodElem args cfg pid_m pid_n i j
          (t * cfg.BLOCK_SIZE_K + kk))
        cfg.BLOCK_SIZE_K (args.K - t * cfg.BLOCK_SIZE_K)]
      exact Finset.sum_congr rfl fun kk _ =>
        load_mul_load args cfg pid_m pid_n t i j kk
    have hmin : min args.K ((t + 1) * cfg.BLOCK_SIZE_K) =
        min args.K (t * cfg.BLOCK_SIZE_K) +
          min cfg.BLOCK_SIZE_K (args.K - t * cfg.BLOCK_SIZE_K) := by
      have e : (t + 1) * cfg.BLOCK_SIZE_K =
          t * cfg.BLOCK_SIZE_K + cfg.BLOCK_SIZE_K := by ring
      omega
    rw [hsum2, hmin, Finset.sum_range_add]
    congr 1
    rcases le_or_lt (t * cfg.BLOCK_SIZE_K) args.K with hle | hlt
    · rw [min_eq_right hle]
    · have h0 : min cfg.BLOCK_SIZE_K (args.K - t * cfg.BLOCK_SIZE_K) = 0 := by
        omega
      rw [h0]
      simp

/-- Terminal state of the K loop: after all `cdiv K BLOCK_SIZE_K` steps the
accumulator lane `(i, j)` is the full length-K ideal dot product. -/
theorem accumulator_eq (args : KernelArgs) (cfg : Config)
    (pid_m pid_n i j : ℕ) (hBK : 0 < cfg.BLOCK_SIZE_K) :
    accumulator args cfg pid_m pid_n i j =
      ∑ k ∈ Finset.range args.K, prodElem args cfg pid_m pid_n i j k := by
  unfold accumulator
  rw [accLoop_eq]
  have h := le_cdiv_mul args.K cfg.BLOCK_SIZE_K hBK
  have hm : min args.K (cdiv args.K cfg.BLOCK_SIZE_K * cfg.BLOCK_SIZE_K) =
      args.K := by omega
  rw [hm]

/-! Characterization of the masked store and of the grid fold. -/

theorem mem_indexPairs {i j m n : ℕ} :
    (i, j) ∈ indexPairs m n ↔ i < m ∧ j < n := by
  unfold indexPairs
  simp [List.mem_flatMap, List.mem_map, List.mem_range, Prod.mk.injEq]

theorem mem_indexPairs_p {p : ℕ × ℕ} {m n : ℕ} :
    p ∈ indexPairs m n ↔ p.1 < m ∧ p.2 < n := by
  rcases p with ⟨i, j⟩
  exact mem_indexPairs

/-- `find?` returns the unique element satisfying the predicate. -/
theorem find?_eq_some_of_unique {α : Type} (p : α → Bool) :
    ∀ (l : List α) (x : α), x ∈ l → p x = true →
      (∀ y ∈ l, p y = true → y = x) → l.find? p = some x := by
  intro l
  induction l with
  | nil => intro x hx _ _; exact absurd hx (List.not_mem_nil x)
  | cons a t ih =>
    intro x hx hpx huni
    by_cases hpa : p a = true
    · have hax : a = x := huni a (List.mem_cons_self a t) hpa
      rw [List.find?_cons_of_pos _ hpa, hax]
    · have hxt : x ∈ t := by
        rcases List.mem_cons.mp hx with h | h
        · exfalso; rw [h] at hpx; exact hpa hpx
        · exact h
      rw [List.find?_cons_of_neg _ (by simpa using hpa)]
      exact ih x hxt hpx fun y hy hpy => huni y (List.mem_cons_of_mem a hy) hpy

/-- If no lane of the tile hits `addr`, the masked store leaves `addr`
unchanged. -/
theorem storeTile_of_no_hit {args : KernelArgs} {cfg : Config}
    {pid_m pid_n addr : ℕ} {c_mem : ℕ → Val}
    (h : ∀ p ∈ indexPairs cfg.BLOCK_SIZE_M cfg.BLOCK_SIZE_N,
      ¬ storeHit args cfg pid_m pid_n addr p = true) :
    storeTile args cfg pid_m pid_n c_mem addr = c_mem addr := by
  unfold storeTile
  rw [List.find?_eq_none.mpr h]

/-- If exactly one lane of the tile hits `addr`, the masked store writes that
lane's epilogue value there. -/
theorem storeTile_of_unique_hit {args : KernelArgs} {cfg : Config}
    {pid_m pid_n addr i0 j0 : ℕ} {c_mem : ℕ → Val}
    (hmem : (i0, j0) ∈ indexPairs cfg.BLOCK_SIZE_M cfg.BLOCK_SIZE_N)
    (hhit : storeHit args cfg pid_m pid_n addr (i0, j0) = true)
    (huni : ∀ p ∈ indexPairs cfg.BLOCK_SIZE_M cfg.BLOCK_SIZE_N,
      storeHit args cfg pid_m pid_n addr p = true → p = (i0, j0)) :
    storeTile args cfg pid_m pid_n c_mem addr =
      cTile args cfg pid_m pid_n i0 j0 := by
  unfold storeTile
  rw [find?_eq_some_of_unique _ _ _ hmem hhit huni]

/-- A fold of program instances none of which stores to `addr` leaves `addr`
unchanged. -/
theorem foldl_no_write (args : KernelArgs) (cfg : Config) (addr : ℕ) :
    ∀ (l : List ℕ) (mem : ℕ → Val),
      (∀ pid ∈ l, ∀ m : ℕ → Val, matmul_kernel args cfg pid m addr = m addr) →
      l.foldl (fun m pid => matmul_kernel args cfg pid m) mem addr =
        mem addr := by
  intro l
  induction l with
  | nil => intro mem _; rfl
  | cons a t ih =>
    intro mem h
    rw [List.foldl_cons,
      ih (matmul_kernel args cfg a mem)
        (fun pid hp m => h pid (List.mem_cons_of_mem a hp) m)]
    exact h a (List.mem_cons_self a t) mem

/-- A fold of program instances exactly one of which stores to `addr` — with
a value `v` independent of the previous C contents — produces `v` there. -/
theorem foldl_unique_write (args : KernelArgs) (cfg : Config) (addr : ℕ)
    (pid0 : ℕ) (v : Val) :
    ∀ (l : List ℕ) (mem : ℕ → Val), pid0 ∈ l →
      (∀ pid ∈ l, pid ≠ pid0 →
        ∀ m : ℕ → Val, matmul_kernel args cfg pid m addr = m addr) →
      (∀ m : ℕ → Val, matmul_kernel args cfg pid0 m addr = v) →
      l.foldl (fun m pid => matmul_kernel args cfg pid m) mem addr = v := by
  intro l
  induction l with
  | nil => intro mem h _ _; exact absurd h (List.not_mem_nil pid0)
  | cons a t ih =>
    intro mem hmem hno hw
    rw [List.foldl_cons]
    by_cases hat : pid0 ∈ t
    · exact ih _ hat
        (fun pid hp hne m => hno pid (List.mem_cons_of_mem a hp) hne m) hw
    · have ha : a = pid0 := by
        rcases List.mem_cons.mp hmem with h | h
        · exact h.symm
        · exact absurd h hat
      rw [foldl_no_write args cfg addr t _
        (fun pid hp m => hno pid (List.mem_cons_of_mem a hp)
          (by rintro rfl; exact hat hp) m)]
      rw [ha]
      exact hw mem

/-- Splitting an address formed with the C strides of the host wrapper:
`N * r + c` with `c < N` determines `r` and `c`. -/
theorem addr_decomp {N r c i j : ℕ} (hc : c < N) (hj : j < N)
    (h : N * r + c = N * i + j) : r = i ∧ c = j := by
  have hN : 0 < N := lt_of_le_of_lt (Nat.zero_le _) hj
  have h1 : (N * r + c) / N = r := by
    rw [Nat.mul_add_div hN, Nat.div_eq_of_lt hc, Nat.add_zero]
  have h2 : (N * i + j) / N = i := by
    rw [Nat.mul_add_div hN, Nat.div_eq_of_lt hj, Nat.add_zero]
  have hr : r = i := by rw [← h1, h, h2]
  refine ⟨hr, ?_⟩
  subst hr
  omega

/-- Splitting a global row index into its tile row and intra-tile row. -/
theorem block_decomp {BM pm ii i : ℕ} (hii : ii < BM)
    (h : pm * BM + ii = i) : pm = i / BM ∧ ii = i % BM := by
  have hBM : 0 < BM := lt_of_le_of_lt (Nat.zero_le _) hii
  subst h
  exact ⟨((div_mod_mul_add hBM hii).1).symm, ((div_mod_mul_add hBM hii).2).symm⟩

/-! Projections of the wrapper-supplied row-major kernel arguments. -/

@[simp] theorem rowMajorArgs_a_mem (a b : ℕ → Val) (M N K : ℕ) (s : String) :
    (rowMajorArgs a b M N K s).a_mem = a := rfl

@[simp] theorem rowMajorArgs_b_mem (a b : ℕ → Val) (M N K : ℕ) (s : String) :
    (rowMajorArgs a b M N K s).b_mem = b := rfl

@[simp] theorem rowMajorArgs_M (a b : ℕ → Val) (M N K : ℕ) (s : String) :
    (rowMajorArgs a b M N K s).M = M := rfl

@[simp] theorem rowMajorArgs_N (a b : ℕ → Val) (M N K : ℕ) (s : String) :
    (rowMajorArgs a b M N K s).N = N := rfl

@[simp] theorem rowMajorArgs_K (a b : ℕ → Val) (M N K : ℕ) (s : String) :
    (rowMajorArgs a b M N K s).K = K := rfl

@[simp] theorem rowMajorArgs_stride_am (a b : ℕ → Val) (M N K : ℕ)
    (s : String) : (rowMajorArgs a b M N K s).stride_am = K := rfl

@[simp] theorem rowMajorArgs_stride_ak (a b : ℕ → Val) (M N K : ℕ)
    (s : String) : (rowMajorArgs a b M N K s).stride_ak = 1 := rfl

@[simp] theorem rowMajorArgs_stride_bk (a b : ℕ → Val) (M N K : ℕ)
    (s : String) : (rowMajorArgs a b M N K s).stride_bk = N := rfl

@[simp] theorem rowMajorArgs_stride_bn (a b : ℕ → Val) (M N K : ℕ)
    (s : String) : (rowMajorArgs a b M N K s).stride_bn = 1 := rfl

@[simp] theorem rowMajorArgs_stride_cm (a b : ℕ → Val) (M N K : ℕ)
    (s : String) : (rowMajorArgs a b M N K s).stride_cm = N := rfl

@[simp] theorem rowMajorArgs_stride_cn (a b : ℕ → Val) (M N K : ℕ)
    (s : String) : (rowMajorArgs a b M N K s).stride_cn = 1 := rfl

@[simp] theorem rowMajorArgs_ACT (a b : ℕ → Val) (M N K : ℕ) (s : String) :
    (rowMajorArgs a b M N K s).ACTIVATION = s := rfl

/-- With the wrapper's row-major strides, a mask-enabled store hit at address
`i * N + j` (with `j < N`) pins down the tile and lane: the program computes
tile `(i / BLOCK_SIZE_M, j / BLOCK_SIZE_N)` and the lane is
`(i % BLOCK_SIZE_M, j % BLOCK_SIZE_N)`; moreover `i < M`. -/
theorem storeHit_rowMajor_decomp {a b : ℕ → Val} {M N K : ℕ} {ACT : String}
    {cfg : Config} {pm pn i j : ℕ} {p : ℕ × ℕ} (hj : j < N)
    (hp1 : p.1 < cfg.BLOCK_SIZE_M) (hp2 : p.2 < cfg.BLOCK_SIZE_N)
    (hhit : storeHit (rowMajorArgs a b M N K ACT) cfg pm pn (i * N + j) p =
      true) :
    pm = i / cfg.BLOCK_SIZE_M ∧ pn = j / cfg.BLOCK_SIZE_N ∧
      p.1 = i % cfg.BLOCK_SIZE_M ∧ p.2 = j % cfg.BLOCK_SIZE_N ∧ i < M := by
  simp only [storeHit, rowMajorArgs_stride_cm, rowMajorArgs_stride_cn,
    rowMajorArgs_M, rowMajorArgs_N, decide_eq_true_eq] at hhit
  obtain ⟨haddr, hm1, hm2⟩ := hhit
  rw [one_mul] at haddr
  have haddr2 : N * (pm * cfg.BLOCK_SIZE_M + p.1) +
      (pn * cfg.BLOCK_SIZE_N + p.2) = N * i + j := by
    rw [haddr, Nat.mul_comm i N]
  obtain ⟨hrow, hcol⟩ := addr_decomp hm2 hj haddr2
  obtain ⟨hpm, hp1e⟩ := block_decomp hp1 hrow
  obtain ⟨hpn, hp2e⟩ := block_decomp hp2 hcol
  exact ⟨hpm, hpn, hp1e, hp2e, hrow ▸ hm1⟩

/-- A program whose tile is not the one containing output position `(i, j)`
never stores to address `i * N + j`. -/
theorem matmul_kernel_no_write {a b : ℕ → Val} {M N K : ℕ} {ACT : String}
    {cfg : Config} {i j pid : ℕ} (hj : j < N)
    (hne : gridMap (cdiv M cfg.BLOCK_SIZE_M) (cdiv N cfg.BLOCK_SIZE_N)
      cfg.GROUP_SIZE_M pid ≠ (i / cfg.BLOCK_SIZE_M, j / cfg.BLOCK_SIZE_N)) :
    ∀ m : ℕ → Val,
      matmul_kernel (rowMajorArgs a b M N K ACT) cfg pid m (i * N + j) =
        m (i * N + j) := by
  intro m
  unfold matmul_kernel
  simp only [rowMajorArgs_M, rowMajorArgs_N]
  apply storeTile_of_no_hit
  intro p hp hhit
  have hp2 := mem_indexPairs_p.mp hp
  obtain ⟨hpm, hpn, _, _, _⟩ :=
    storeHit_rowMajor_decomp hj hp2.1 hp2.2 hhit
  exact hne (Prod.ext hpm hpn)

/-- The program owning the tile of output position `(i, j)` stores exactly
the epilogue value of lane `(i % BLOCK_SIZE_M, j % BLOCK_SIZE_N)` at address
`i * N + j`, independently of the previous C contents. -/
theorem matmul_kernel_write {a b : ℕ → Val} {M N K : ℕ} {ACT : String}
    {cfg : Config} {i j pid : ℕ} (hBM : 0 < cfg.BLOCK_SIZE_M)
    (hBN : 0 < cfg.BLOCK_SIZE_N) (hi : i < M) (hj : j < N)
    (heq : gridMap (cdiv M cfg.BLOCK_SIZE_M) (cdiv N cfg.BLOCK_SIZE_N)
      cfg.GROUP_SIZE_M pid = (i / cfg.BLOCK_SIZE_M, j / cfg.BLOCK_SIZE_N)) :
    ∀ m : ℕ → Val,
      matmul_kernel (rowMajorArgs a b M N K ACT) cfg pid m (i * N + j) =
        cTile (rowMajorArgs a b M N K ACT) cfg (i / cfg.BLOCK_SIZE_M)
          (j / cfg.BLOCK_SIZE_N) (i % cfg.BLOCK_SIZE_M)
          (j % cfg.BLOCK_SIZE_N) := by
  intro m
  unfold matmul_kernel
  simp only [rowMajorArgs_M, rowMajorArgs_N, heq]
  apply storeTile_of_unique_hit
  · exact mem_indexPairs.mpr ⟨Nat.mod_lt _ hBM, Nat.mod_lt _ hBN⟩
  · simp only [storeHit, rowMajorArgs_stride_cm, rowMajorArgs_stride_cn,
      rowMajorArgs_M, rowMajorArgs_N, decide_eq_true_eq]
    have e1 : i / cfg.BLOCK_SIZE_M * cfg.BLOCK_SIZE_M +
        i % cfg.BLOCK_SIZE_M = i := by
      have h := Nat.div_add_mod i cfg.BLOCK_SIZE_M
      have c : i / cfg.BLOCK_SIZE_M * cfg.BLOCK_SIZE_M =
          cfg.BLOCK_SIZE_M * (i / cfg.BLOCK_SIZE_M) := Nat.mul_comm _ _
      omega
    have e2 : j / cfg.BLOCK_SIZE_N * cfg.BLOCK_SIZE_N +
        j % cfg.BLOCK_SIZE_N = j := by
      have h := Nat.div_add_mod j cfg.BLOCK_SIZE_N
      have c : j / cfg.BLOCK_SIZE_N * cfg.BLOCK_SIZE_N =
          cfg.BLOCK_SIZE_N * (j / cfg.BLOCK_SIZE_N) := Nat.mul_comm _ _
      omega
    refine ⟨?_, by omega, by omega⟩
    rw [one_mul, e1, e2, Nat.mul_comm N i]
  · intro p hp hhit
    have hp2 := mem_indexPairs_p.mp hp
    obtain ⟨_, _, h1, h2, _⟩ :=
      storeHit_rowMajor_decomp hj hp2.1 hp2.2 hhit
    exact Prod.ext h1 h2

theorem div_mul_add_mod (i B : ℕ) : i / B * B + i % B = i := by
  have h := Nat.div_add_mod i B
  have c : i / B * B = B * (i / B) := Nat.mul_comm _ _
  omega

/-- With the wrapper's row-major strides, the accumulator of the tile owning
output position `(i, j)` ends as the exact reference dot product. -/
theorem accumulator_rowMajor {a b : ℕ → Val} {M N K : ℕ} {ACT : String}
    {cfg : Config} {i j : ℕ} (hBK : 0 < cfg.BLOCK_SIZE_K) (hi : i < M)
    (hj : j < N) :
    accumulator (rowMajorArgs a b M N K ACT) cfg (i / cfg.BLOCK_SIZE_M)
        (j / cfg.BLOCK_SIZE_N) (i % cfg.BLOCK_SIZE_M)
        (j % cfg.BLOCK_SIZE_N) =
      ∑ k ∈ Finset.range K, a (i * K + k) * b (k * N + j) := by
  rw [accumulator_eq _ _ _ _ _ _ hBK]
  simp only [rowMajorArgs_K]
  apply Finset.sum_congr rfl
  intro k _
  unfold prodElem
  simp only [rowMajorArgs_a_mem, rowMajorArgs_b_mem, rowMajorArgs_M,
    rowMajorArgs_N, rowMajorArgs_stride_am, rowMajorArgs_stride_ak,
    rowMajorArgs_stride_bk, rowMajorArgs_stride_bn, mul_one]
  rw [div_mul_add_mod, div_mul_add_mod, Nat.mod_eq_of_lt hi,
    Nat.mod_eq_of_lt hj]

/-- C1: for every M, N, K and every catalog Configuration (all of which have
positive tile parameters), the masked-boundary kernel output equals the
mathematical matrix product on the valid M×N region: after all K steps the
per-tile accumulator holds the exact dot product for its tile, and the
launched kernel stores, at every output position `(i, j)` with `i < M` and
`j < N`, exactly the reference product `∑ k < K, A[i,k] * B[k,j]`. -/
theorem matmul_kernel_masked_output_correct :
    (∀ c ∈ get_cuda_autotune_config ++ get_hip_autotune_config, c.ok) ∧
    ∀ (cfg : Config) (a b c_init : ℕ → Val) (M N K i j : ℕ), cfg.ok →
      i < M → j < N →
      accumulator (rowMajorArgs a b M N K "") cfg (i / cfg.BLOCK_SIZE_M)
          (j / cfg.BLOCK_SIZE_N) (i % cfg.BLOCK_SIZE_M)
          (j % cfg.BLOCK_SIZE_N) =
        (∑ k ∈ Finset.range K, a (i * K + k) * b (k * N + j)) ∧
      launch (rowMajorArgs a b M N K "") cfg c_init (i * N + j) =
        ∑ k ∈ Finset.range K, a (i * K + k) * b (k * N + j) := by
  constructor
  · decide
  · intro cfg a b c_init M N K i j hok hi hj
    obtain ⟨hBM, hBN, hBK, hG⟩ := hok
    have hacc := @accumulator_rowMajor a b M N K "" cfg i j hBK hi hj
    refine ⟨hacc, ?_⟩
    have htm : i / cfg.BLOCK_SIZE_M < cdiv M cfg.BLOCK_SIZE_M :=
      lt_cdiv_of_lt_mul hBM hi
    have htn : j / cfg.BLOCK_SIZE_N < cdiv N cfg.BLOCK_SIZE_N :=
      lt_cdiv_of_lt_mul hBN hj
    have hmem : pidOfTile (cdiv M cfg.BLOCK_SIZE_M) (cdiv N cfg.BLOCK_SIZE_N)
        cfg.GROUP_SIZE_M (i / cfg.BLOCK_SIZE_M) (j / cfg.BLOCK_SIZE_N) ∈
        List.range (cdiv M cfg.BLOCK_SIZE_M * cdiv N cfg.BLOCK_SIZE_N) :=
      List.mem_range.mpr (pidOfTile_lt hG htm htn)
    have hno : ∀ pid ∈
        List.range (cdiv M cfg.BLOCK_SIZE_M * cdiv N cfg.BLOCK_SIZE_N),
        pid ≠ pidOfTile (cdiv M cfg.BLOCK_SIZE_M) (cdiv N cfg.BLOCK_SIZE_N)
          cfg.GROUP_SIZE_M (i / cfg.BLOCK_SIZE_M) (j / cfg.BLOCK_SIZE_N) →
        ∀ m : ℕ → Val,
          matmul_kernel (rowMajorArgs a b M N K "") cfg pid m (i * N + j) =
            m (i * N + j) := by
      intro pid hpl hne m
      refine matmul_kernel_no_write hj (fun heq => hne ?_) m
      have h := pidOfTile_gridMap hG (List.mem_range.mp hpl)
      rw [heq] at h
      exact h.symm
    have hw : ∀ m : ℕ → Val,
        matmul_kernel (rowMajorArgs a b M N K "") cfg
          (pidOfTile (cdiv M cfg.BLOCK_SIZE_M) (cdiv N cfg.BLOCK_SIZE_N)
            cfg.GROUP_SIZE_M (i / cfg.BLOCK_SIZE_M) (j / cfg.BLOCK_SIZE_N))
          m (i * N + j) =
        cTile (rowMajorArgs a b M N K "") cfg (i / cfg.BLOCK_SIZE_M)
          (j / cfg.BLOCK_SIZE_N) (i % cfg.BLOCK_SIZE_M)
          (j % cfg.BLOCK_SIZE_N) :=
      matmul_kernel_write hBM hBN hi hj (gridMap_pidOfTile hG htm htn)
    unfold launch
    simp only [rowMajorArgs_M, rowMajorArgs_N]
    rw [foldl_unique_write (rowMajorArgs a b M N K "") cfg (i * N + j) _ _ _
      c_init hmem hno hw]
    unfold cTile
    simp only [rowMajorArgs_ACT, applyActivation, if_neg
      (by decide : ¬ ("" : String) = "leaky_relu")]
    exact hacc

/-- Witness for C1 at `M = N = K = 2` with unit tile sizes and `i = j = 1`. -/
theorem matmul_kernel_masked_output_correct_witness :
    Config.ok ⟨1, 1, 1, 1, 0, 0⟩ ∧ (1 : ℕ) < 2 ∧ (1 : ℕ) < 2 ∧
      (accumulator
          (rowMajorArgs (fun n => (n : ℚ)) (fun n => (n : ℚ)) 2 2 2 "")
          ⟨1, 1, 1, 1, 0, 0⟩ (1 / 1) (1 / 1) (1 % 1) (1 % 1) =
        (∑ k ∈ Finset.range 2,
          ((1 * 2 + k : ℕ) : ℚ) * ((k * 2 + 1 : ℕ) : ℚ)) ∧
      launch (rowMajorArgs (fun n => (n : ℚ)) (fun n => (n : ℚ)) 2 2 2 "")
          ⟨1, 1, 1, 1, 0, 0⟩ (fun _ => 0) (1 * 2 + 1) =
        ∑ k ∈ Finset.range 2,
          ((1 * 2 + k : ℕ) : ℚ) * ((k * 2 + 1 : ℕ) : ℚ)) :=
  ⟨by decide, by decide, by decide,
    matmul_kernel_masked_output_correct.2 ⟨1, 1, 1, 1, 0, 0⟩
      (fun n => (n : ℚ)) (fun n => (n : ℚ)) (fun _ => 0) 2 2 2 1 1
      (by decide) (by decide) (by decide)⟩

/-- C2: for every M, N and every Configuration with `GROUP_SIZE_M ≥ 1`, the
grouped pid-to-tile mapping is a bijection between the launched pid range
`[0, cdiv M BLOCK_SIZE_M * cdiv N BLOCK_SIZE_N)` and the tile grid: every
launched pid lands on an in-range tile, and every in-range tile — including
those of the last, clamped group — is produced by exactly one pid. -/
theorem launch_grid_mapper_bijection (M N : ℕ) (cfg : Config)
    (hG : 0 < cfg.GROUP_SIZE_M) :
    (∀ pid < cdiv M cfg.BLOCK_SIZE_M * cdiv N cfg.BLOCK_SIZE_N,
      (gridMap (cdiv M cfg.BLOCK_SIZE_M) (cdiv N cfg.BLOCK_SIZE_N)
          cfg.GROUP_SIZE_M pid).1 < cdiv M cfg.BLOCK_SIZE_M ∧
        (gridMap (cdiv M cfg.BLOCK_SIZE_M) (cdiv N cfg.BLOCK_SIZE_N)
          cfg.GROUP_SIZE_M pid).2 < cdiv N cfg.BLOCK_SIZE_N) ∧
    ∀ tm < cdiv M cfg.BLOCK_SIZE_M, ∀ tn < cdiv N cfg.BLOCK_SIZE_N,
      ∃! pid, pid < cdiv M cfg.BLOCK_SIZE_M * cdiv N cfg.BLOCK_SIZE_N ∧
        gridMap (cdiv M cfg.BLOCK_SIZE_M) (cdiv N cfg.BLOCK_SIZE_N)
          cfg.GROUP_SIZE_M pid = (tm, tn) :=
  ⟨fun _ hpid => gridMap_mem hG hpid,
    fun _ htm _ htn => gridMap_existsUnique hG htm htn⟩

/-- Witness for C2 at the spec's boundary scenario `M = N = 9`,
`BLOCK_SIZE_M = BLOCK_SIZE_N = 4`, `GROUP_SIZE_M = 2` (a 3×3 tile grid whose
last group has clamped size 1). -/
theorem launch_grid_mapper_bijection_witness :
    0 < (⟨4, 4, 4, 2, 0, 0⟩ : Config).GROUP_SIZE_M ∧
      (2 : ℕ) < cdiv 9 (⟨4, 4, 4, 2, 0, 0⟩ : Config).BLOCK_SIZE_M ∧
      (1 : ℕ) < cdiv 9 (⟨4, 4, 4, 2, 0, 0⟩ : Config).BLOCK_SIZE_N ∧
      ∃! pid, pid < cdiv 9 (⟨4, 4, 4, 2, 0, 0⟩ : Config).BLOCK_SIZE_M *
          cdiv 9 (⟨4, 4, 4, 2, 0, 0⟩ : Config).BLOCK_SIZE_N ∧
        gridMap (cdiv 9 (⟨4, 4, 4, 2, 0, 0⟩ : Config).BLOCK_SIZE_M)
          (cdiv 9 (⟨4, 4, 4, 2, 0, 0⟩ : Config).BLOCK_SIZE_N)
          (⟨4, 4, 4, 2, 0, 0⟩ : Config).GROUP_SIZE_M pid = (2, 1) :=
  ⟨by decide, by decide, by decide,
    (launch_grid_mapper_bijection 9 9 ⟨4, 4, 4, 2, 0, 0⟩ (by decide)).2
      2 (by decide) 1 (by decide)⟩

/-- C3: the accumulation loop drives exactly `cdiv K BLOCK_SIZE_K` steps; at
step k every loaded A or B lane whose local K index `kk` satisfies
`kk ≥ K - k * BLOCK_SIZE_K` is replaced by the additive identity zero before
the multiply-accumulate; consequently, for every K — in particular K not
divisible by BLOCK_SIZE_K, where the last step is a partial tile — the final
accumulator equals exactly the sum of the K ideal products of the logically
truncated reduction. -/
theorem accumulation_loop_masked (args : KernelArgs) (cfg : Config)
    (pid_m pid_n : ℕ) (hBK : 0 < cfg.BLOCK_SIZE_K) :
    (∀ i j, accumulator args cfg pid_m pid_n i j =
      accLoop args cfg pid_m pid_n (cdiv args.K cfg.BLOCK_SIZE_K) i j) ∧
    (∀ (k i kk : ℕ),
      (args.K : ℤ) - (k : ℤ) * (cfg.BLOCK_SIZE_K : ℤ) ≤ (kk : ℤ) →
      loadA args cfg pid_m k i kk = 0) ∧
    (∀ (k kk j : ℕ),
      (args.K : ℤ) - (k : ℤ) * (cfg.BLOCK_SIZE_K : ℤ) ≤ (kk : ℤ) →
      loadB args cfg pid_n k kk j = 0) ∧
    (∀ i j, accumulator args cfg pid_m pid_n i j =
      ∑ k ∈ Finset.range args.K, prodElem args cfg pid_m pid_n i j k) := by
  refine ⟨fun i j => rfl, ?_, ?_, fun i j => accumulator_eq _ _ _ _ _ _ hBK⟩
  · intro k i kk h
    unfold loadA
    rw [if_neg (not_lt.mpr h)]
  · intro k kk j h
    unfold loadB
    rw [if_neg (not_lt.mpr h)]

/-- Witness for C3 at `K = 3`, `BLOCK_SIZE_K = 2` (a trailing partial
tile). -/
theorem accumulation_loop_masked_witness :
    0 < (⟨1, 1, 2, 1, 0, 0⟩ : Config).BLOCK_SIZE_K ∧
      accumulator (rowMajorArgs (fun n => (n : ℚ)) (fun n => (n : ℚ)) 1 1 3 "")
          ⟨1, 1, 2, 1, 0, 0⟩ 0 0 0 0 =
        ∑ k ∈ Finset.range
            (rowMajorArgs (fun n => (n : ℚ)) (fun n => (n : ℚ)) 1 1 3 "").K,
          prodElem (rowMajorArgs (fun n => (n : ℚ)) (fun n => (n : ℚ)) 1 1 3 "")
            ⟨1, 1, 2, 1, 0, 0⟩ 0 0 0 0 k :=
  ⟨by decide,
    (accumulation_loop_masked
      (rowMajorArgs (fun n => (n : ℚ)) (fun n => (n : ℚ)) 1 1 3 "")
      ⟨1, 1, 2, 1, 0, 0⟩ 0 0 (by decide)).2.2.2 0 0⟩

/-! Noninterference of memory contents outside the logical A/B regions. -/

/-- Every in-extent load of the accumulation loop reads inside the logical
A (M×K) and B (K×N) regions — the M/N wrap keeps row/column indices below
M/N and the K mask bounds the reduction index — so two pairs of buffers that
agree there drive the accumulator identically. -/
theorem accLoop_agree {a1 a2 b1 b2 : ℕ → Val}
    {M N K sam sak sbk sbn scm scn : ℕ} {ACT : String} {cfg : Config}
    {pm pn i j : ℕ}
    (hA : ∀ (r k : ℕ), r < M → k < K →
      a1 (r * sam + k * sak) = a2 (r * sam + k * sak))
    (hB : ∀ (k c : ℕ), k < K → c < N →
      b1 (k * sbk + c * sbn) = b2 (k * sbk + c * sbn))
    (hM : 0 < M) (hN : 0 < N) :
    ∀ t, accLoop ⟨a1, b1, M, N, K, sam, sak, sbk, sbn, scm, scn, ACT⟩ cfg
        pm pn t i j =
      accLoop ⟨a2, b2, M, N, K, sam, sak, sbk, sbn, scm, scn, ACT⟩ cfg
        pm pn t i j := by
  intro t
  induction t with
  | zero => rfl
  | succ t ih =>
    rw [show ∀ args : KernelArgs, accLoop args cfg pm pn (t + 1) i j =
        accLoop args cfg pm pn t i j +
          ∑ kk ∈ Finset.range cfg.BLOCK_SIZE_K,
            loadA args cfg pm t i kk * loadB args cfg pn t kk j
      from fun _ => rfl,
      show ∀ args : KernelArgs, accLoop args cfg pm pn (t + 1) i j =
        accLoop args cfg pm pn t i j +
          ∑ kk ∈ Finset.range cfg.BLOCK_SIZE_K,
            loadA args cfg pm t i kk * loadB args cfg pn t kk j
      from fun _ => rfl,
      ih]
    congr 1
    apply Finset.sum_congr rfl
    intro kk _
    unfold loadA loadB
    dsimp only
    by_cases h : (kk : ℤ) < (K : ℤ) - (t : ℤ) * (cfg.BLOCK_SIZE_K : ℤ)
    · rw [if_pos h, if_pos h, if_pos h, if_pos h]
      have hk : kk + t * cfg.BLOCK_SIZE_K < K :=
        (maskK_iff kk t cfg.BLOCK_SIZE_K K).mp h
      rw [hA _ _ (Nat.mod_lt _ hM) hk, hB _ _ hk (Nat.mod_lt _ hN)]
    · rw [if_neg h, if_neg h, if_neg h, if_neg h]

/-- The epilogue value of a lane depends only on the in-region contents of
the A and B buffers. -/
theorem cTile_agree {a1 a2 b1 b2 : ℕ → Val}
    {M N K sam sak sbk sbn scm scn : ℕ} {ACT : String} {cfg : Config}
    {pm pn i j : ℕ}
    (hA : ∀ (r k : ℕ), r < M → k < K →
      a1 (r * sam + k * sak) = a2 (r * sam + k * sak))
    (hB : ∀ (k c : ℕ), k < K → c < N →
      b1 (k * sbk + c * sbn) = b2 (k * sbk + c * sbn))
    (hM : 0 < M) (hN : 0 < N) :
    cTile ⟨a1, b1, M, N, K, sam, sak, sbk, sbn, scm, scn, ACT⟩ cfg pm pn
        i j =
      cTile ⟨a2, b2, M, N, K, sam, sak, sbk, sbn, scm, scn, ACT⟩ cfg pm pn
        i j := by
  unfold cTile accumulator
  dsimp only
  rw [accLoop_agree hA hB hM hN]

/-- One program instance cannot distinguish two pairs of A/B buffers that
agree on the logical regions: it transforms pointwise-equal C buffers into
pointwise-equal C buffers. -/
theorem matmul_kernel_agree {a1 a2 b1 b2 : ℕ → Val}
    {M N K sam sak sbk sbn scm scn : ℕ} {ACT : String} {cfg : Config}
    (hA : ∀ (r k : ℕ), r < M → k < K →
      a1 (r * sam + k * sak) = a2 (r * sam + k * sak))
    (hB : ∀ (k c : ℕ), k < K → c < N →
      b1 (k * sbk + c * sbn) = b2 (k * sbk + c * sbn))
    (pid : ℕ) (m1 m2 : ℕ → Val) (hm : ∀ x, m1 x = m2 x) (addr : ℕ) :
    matmul_kernel ⟨a1, b1, M, N, K, sam, sak, sbk, sbn, scm, scn, ACT⟩ cfg
        pid m1 addr =
      matmul_kernel ⟨a2, b2, M, N, K, sam, sak, sbk, sbn, scm, scn, ACT⟩ cfg
        pid m2 addr := by
  unfold matmul_kernel storeTile
  dsimp only
  have hpred : storeHit
      (⟨a1, b1, M, N, K, sam, sak, sbk, sbn, scm, scn, ACT⟩ : KernelArgs) cfg
      (gridMap (cdiv M cfg.BLOCK_SIZE_M) (cdiv N cfg.BLOCK_SIZE_N)
        cfg.GROUP_SIZE_M pid).1
      (gridMap (cdiv M cfg.BLOCK_SIZE_M) (cdiv N cfg.BLOCK_SIZE_N)
        cfg.GROUP_SIZE_M pid).2 addr =
    storeHit
      (⟨a2, b2, M, N, K, sam, sak, sbk, sbn, scm, scn, ACT⟩ : KernelArgs) cfg
      (gridMap (cdiv M cfg.BLOCK_SIZE_M) (cdiv N cfg.BLOCK_SIZE_N)
        cfg.GROUP_SIZE_M pid).1
      (gridMap (cdiv M cfg.BLOCK_SIZE_M) (cdiv N cfg.BLOCK_SIZE_N)
        cfg.GROUP_SIZE_M pid).2 addr := rfl
  rw [hpred]
  rcases hfind : (indexPairs cfg.BLOCK_SIZE_M cfg.BLOCK_SIZE_N).find?
      (storeHit
        (⟨a2, b2, M, N, K, sam, sak, sbk, sbn, scm, scn, ACT⟩ : KernelArgs)
        cfg
        (gridMap (cdiv M cfg.BLOCK_SIZE_M) (cdiv N cfg.BLOCK_SIZE_N)
          cfg.GROUP_SIZE_M pid).1
        (gridMap (cdiv M cfg.BLOCK_SIZE_M) (cdiv N cfg.BLOCK_SIZE_N)
          cfg.GROUP_SIZE_M pid).2 addr) with _ | p
  · exact hm addr
  · have hhit := List.find?_some hfind
    simp only [storeHit, decide_eq_true_eq] at hhit
    have hM : 0 < M := lt_of_le_of_lt (Nat.zero_le _) hhit.2.1
    have hN : 0 < N := lt_of_le_of_lt (Nat.zero_le _) hhit.2.2
    exact cTile_agree hA hB hM hN

theorem foldl_agree (f g : (ℕ → Val) → ℕ → (ℕ → Val))
    (hfg : ∀ pid (m1 m2 : ℕ → Val), (∀ x, m1 x = m2 x) →
      ∀ x, f m1 pid x = g m2 pid x) :
    ∀ (l : List ℕ) (m1 m2 : ℕ → Val), (∀ x, m1 x = m2 x) →
      ∀ x, l.foldl f m1 x = l.foldl g m2 x := by
  intro l
  induction l with
  | nil => intro m1 m2 hm x; exact hm x
  | cons a t ih =>
    intro m1 m2 hm x
    rw [List.foldl_cons, List.foldl_cons]
    exact ih _ _ (hfg a m1 m2 hm) x

/-- C4: row indices of A are wrapped modulo M and column indices of B modulo
N before address formation (K indices are handled by the loop mask alone, as
in `loadA`/`loadB`), and a value reachable only through a wrapped index is
never semantically consumed: for any two A buffers that agree on the logical
M×K region and any two B buffers that agree on the logical K×N region, the
launched kernel produces an identical C buffer — whatever the strides, the
activation, and the contents at wrapped (out-of-range) addresses. -/
theorem wraparound_noninterference (cfg : Config)
    (a1 a2 b1 b2 c_init : ℕ → Val)
    (M N K sam sak sbk sbn scm scn : ℕ) (ACT : String)
    (hA : ∀ (r k : ℕ), r < M → k < K →
      a1 (r * sam + k * sak) = a2 (r * sam + k * sak))
    (hB : ∀ (k c : ℕ), k < K → c < N →
      b1 (k * sbk + c * sbn) = b2 (k * sbk + c * sbn)) :
    ∀ addr,
      launch ⟨a1, b1, M, N, K, sam, sak, sbk, sbn, scm, scn, ACT⟩ cfg c_init
          addr =
        launch ⟨a2, b2, M, N, K, sam, sak, sbk, sbn, scm, scn, ACT⟩ cfg
          c_init addr := by
  intro addr
  unfold launch
  dsimp only
  exact foldl_agree _ _
    (fun pid m1 m2 hm x => matmul_kernel_agree hA hB pid m1 m2 hm x)
    _ c_init c_init (fun _ => rfl) addr

/-- Witness for C4: `M = N = K = 1` with unit tiles; the two A buffers (and
the two B buffers) agree at the single logical address 0 and differ
everywhere else, yet the stored C agrees (checked at address 0). -/
theorem wraparound_noninterference_witness :
    (∀ (r k : ℕ), r < 1 → k < 1 →
      (fun n => if n = 0 then (3 : ℚ) else 7) (r * 1 + k * 1) =
      (fun n => if n = 0 then (3 : ℚ) else 11) (r * 1 + k * 1)) ∧
    (∀ (k c : ℕ), k < 1 → c < 1 →
      (fun n => if n = 0 then (5 : ℚ) else 13) (k * 1 + c * 1) =
      (fun n => if n = 0 then (5 : ℚ) else 17) (k * 1 + c * 1)) ∧
    launch ⟨fun n => if n = 0 then (3 : ℚ) else 7,
        fun n => if n = 0 then (5 : ℚ) else 13,
        1, 1, 1, 1, 1, 1, 1, 1, 1, ""⟩ ⟨1, 1, 1, 1, 0, 0⟩ (fun _ => 0) 0 =
      launch ⟨fun n => if n = 0 then (3 : ℚ) else 11,
        fun n => if n = 0 then (5 : ℚ) else 17,
        1, 1, 1, 1, 1, 1, 1, 1, 1, ""⟩ ⟨1, 1, 1, 1, 0, 0⟩ (fun _ => 0) 0 :=
  ⟨by intro r k hr hk
      have hr0 : r = 0 := by omega
      have hk0 : k = 0 := by omega
      subst hr0; subst hk0; rfl,
    by intro k c hk hc
       have hk0 : k = 0 := by omega
       have hc0 : c = 0 := by omega
       subst hk0; subst hc0; rfl,
    wraparound_noninterference ⟨1, 1, 1, 1, 0, 0⟩
      (fun n => if n = 0 then (3 : ℚ) else 7)
      (fun n => if n = 0 then (3 : ℚ) else 11)
      (fun n => if n = 0 then (5 : ℚ) else 13)
      (fun n => if n = 0 then (5 : ℚ) else 17)
      (fun _ => 0) 1 1 1 1 1 1 1 1 1 ""
      (by intro r k hr hk
          have hr0 : r = 0 := by omega
          have hk0 : k = 0 := by omega
          subst hr0; subst hk0; rfl)
      (by intro k c hk hc
          have hk0 : k = 0 := by omega
          have hc0 : c = 0 := by omega
          subst hk0; subst hc0; rfl) 0⟩

/-- C5: the epilogue's destination offsets are formed without modulo and the
store mask admits only `row < M ∧ col < N`; every address of the C buffer
that is not a no-wrap destination `stride_cm * i + stride_cn * j` of some
valid position `(i < M, j < N)` is skipped by every program of the launch
and keeps its previous contents — for all strides, all activations, every
tile (including the partial last row/column tiles), and without any error
path (the launch is a total function). -/
theorem epilogue_masked_store_frame (args : KernelArgs) (cfg : Config)
    (c_init : ℕ → Val) (addr : ℕ)
    (h : ∀ (i j : ℕ), i < args.M → j < args.N →
      addr ≠ args.stride_cm * i + args.stride_cn * j) :
    launch args cfg c_init addr = c_init addr := by
  unfold launch
  apply foldl_no_write
  intro pid _ m
  unfold matmul_kernel
  apply storeTile_of_no_hit
  intro p _ hhit
  simp only [storeHit, decide_eq_true_eq] at hhit
  obtain ⟨haddr, hm1, hm2⟩ := hhit
  exact h _ _ hm1 hm2 haddr.symm

/-- Witness for C5: `M = N = 3` with 2×2 output tiles (partial last row and
column); the padding address of lane (1,1) of the last tile, `3 * 3 + 3`, is
outside the valid 3×3 region and is left at its initial value. -/
theorem epilogue_masked_store_frame_witness :
    (∀ (i j : ℕ), i < (rowMajorArgs (fun _ => (1 : ℚ)) (fun _ => (1 : ℚ))
        3 3 1 "").M →
      j < (rowMajorArgs (fun _ => (1 : ℚ)) (fun _ => (1 : ℚ)) 3 3 1 "").N →
      (12 : ℕ) ≠
        (rowMajorArgs (fun _ => (1 : ℚ)) (fun _ => (1 : ℚ)) 3 3 1
            "").stride_cm * i +
          (rowMajorArgs (fun _ => (1 : ℚ)) (fun _ => (1 : ℚ)) 3 3 1
            "").stride_cn * j) ∧
    launch (rowMajorArgs (fun _ => (1 : ℚ)) (fun _ => (1 : ℚ)) 3 3 1 "")
        ⟨2, 2, 1, 2, 0, 0⟩ (fun _ => 42) 12 = (fun _ => (42 : ℚ)) 12 :=
  ⟨by intro i j hi hj
      simp only [rowMajorArgs_M, rowMajorArgs_N] at hi hj
      simp only [rowMajorArgs_stride_cm, rowMajorArgs_stride_cn]
      omega,
    epilogue_masked_store_frame
      (rowMajorArgs (fun _ => (1 : ℚ)) (fun _ => (1 : ℚ)) 3 3 1 "")
      ⟨2, 2, 1, 2, 0, 0⟩ (fun _ => 42) 12
      (by intro i j hi hj
          simp only [rowMajorArgs_M, rowMajorArgs_N] at hi hj
          simp only [rowMajorArgs_stride_cm, rowMajorArgs_stride_cn]
          omega)⟩

/-- C6: the fused activation set is `{identity, leaky_relu}`: the selector
`"leaky_relu"` applies `x ↦ x if x ≥ 0 else 0.01 * x` elementwise (mapping
the sample accumulator values −1, 0, 1 to −0.01, 0, 1), and every other
selector — including the empty-string default and arbitrary unrecognized
strings — applies the identity, as the documented fallback rather than an
error. -/
theorem activation_dispatch :
    (∀ x : Val, applyActivation "leaky_relu" x =
      if 0 ≤ x then x else (1 / 100) * x) ∧
    (applyActivation "leaky_relu" (-1) = -(1 / 100) ∧
      applyActivation "leaky_relu" 0 = 0 ∧
      applyActivation "leaky_relu" 1 = 1) ∧
    ∀ s : String, s ≠ "leaky_relu" → ∀ x : Val, applyActivation s x = x := by
  refine ⟨fun x => ?_, ⟨?_, ?_, ?_⟩, fun s hs x => ?_⟩
  · unfold applyActivation leaky_relu
    rw [if_pos rfl]
  · unfold applyActivation leaky_relu
    norm_num
  · unfold applyActivation leaky_relu
    norm_num
  · unfold applyActivation leaky_relu
    norm_num
  · unfold applyActivation
    rw [if_neg hs]

/-- Witness for C6: the empty string and an arbitrary unknown selector fall
back to the identity. -/
theorem activation_dispatch_witness :
    ("" : String) ≠ "leaky_relu" ∧ ("gelu" : String) ≠ "leaky_relu" ∧
      applyActivation "" 5 = 5 ∧ applyActivation "gelu" (-3) = -3 :=
  ⟨by decide, by decide,
    activation_dispatch.2.2 "" (by decide) 5,
    activation_dispatch.2.2 "gelu" (by decide) (-3)⟩

/-- C7: the host wrapper checks `a.shape[1] == b.shape[0]` and
`a.is_contiguous()` before any allocation or launch; a failed check aborts
the call with the assert's message (fatal, surfaced, nothing scheduled),
while a shape-compatible contiguous A leads to an allocation of C and a
dispatch of exactly `cdiv M BLOCK_SIZE_M * cdiv N BLOCK_SIZE_N` work
units. -/
theorem matmul_wrapper_validation (cfg : Config) (a b : TensorDesc)
    (act : String) :
    (a.cols ≠ b.rows → matmul cfg a b act = .error "Incompatible dimensions") ∧
    (a.cols = b.rows → a.contiguous = false →
      matmul cfg a b act = .error "Matrix A must be contiguous") ∧
    (a.cols = b.rows → a.contiguous = true →
      matmul cfg a b act = .ok
        { out_rows := a.rows, out_cols := b.cols, out_dtype := DType.float16,
          grid := cdiv a.rows cfg.BLOCK_SIZE_M *
            cdiv b.cols cfg.BLOCK_SIZE_N }) := by
  refine ⟨fun hne => ?_, fun heq hc => ?_, fun heq hc => ?_⟩
  · unfold matmul
    rw [if_pos hne]
  · unfold matmul
    rw [if_neg (by simpa using heq), if_pos hc]
  · unfold matmul
    rw [if_neg (by simpa using heq), if_neg (by simp [hc])]

/-- Witness for C7: a 2×3 by 4×5 product is rejected for shape mismatch; a
non-contiguous 2×3 A against a 3×5 B is rejected for contiguity; a valid
2×3 by 3×5 call dispatches `cdiv 2 1 * cdiv 5 1 = 10` work units. -/
theorem matmul_wrapper_validation_witness :
    ((⟨2, 3, DType.float16, true⟩ : TensorDesc).cols ≠
        (⟨4, 5, DType.float16, true⟩ : TensorDesc).rows ∧
      matmul ⟨1, 1, 1, 1, 0, 0⟩ ⟨2, 3, DType.float16, true⟩
        ⟨4, 5, DType.float16, true⟩ "" = .error "Incompatible dimensions") ∧
    ((⟨2, 3, DType.float16, false⟩ : TensorDesc).contiguous = false ∧
      matmul ⟨1, 1, 1, 1, 0, 0⟩ ⟨2, 3, DType.float16, false⟩
        ⟨3, 5, DType.float16, true⟩ "" =
        .error "Matrix A must be contiguous") ∧
    matmul ⟨1, 1, 1, 1, 0, 0⟩ ⟨2, 3, DType.float16, true⟩
        ⟨3, 5, DType.float16, true⟩ "" = .ok
      { out_rows := 2, out_cols := 5, out_dtype := DType.float16,
        grid := cdiv 2 1 * cdiv 5 1 } :=
  ⟨⟨by decide,
      (matmul_wrapper_validation ⟨1, 1, 1, 1, 0, 0⟩ ⟨2, 3, DType.float16, true⟩
        ⟨4, 5, DType.float16, true⟩ "").1 (by decide)⟩,
    ⟨by decide,
      (matmul_wrapper_validation ⟨1, 1, 1, 1, 0, 0⟩
        ⟨2, 3, DType.float16, false⟩ ⟨3, 5, DType.float16, true⟩ "").2.1
        (by decide) (by decide)⟩,
    (matmul_wrapper_validation ⟨1, 1, 1, 1, 0, 0⟩ ⟨2, 3, DType.float16, true⟩
      ⟨3, 5, DType.float16, true⟩ "").2.2 (by decide) (by decide)⟩

/-- C8: the accumulator is created as fp32 and stays fp32 across every
iteration of the K loop (`tl.dot(a, b, acc)` accumulates in the dtype of its
accumulator operand); its width (32) is at least the width of every input
element type driven through the wrapper (fp16 and fp8) and strictly exceeds
the 16-bit output storage type, to which the result is narrowed only once —
by `c = accumulator.to(tl.float16)`, placed after the whole loop and the
optional activation, never between reduction steps. -/
theorem accumulation_precision_discipline :
    (∀ d ∈ inputDTypes, dtypeWidth d ≤ dtypeWidth accInitDType) ∧
    dtypeWidth cStoreDType < dtypeWidth accInitDType ∧
    (∀ t : ℕ, accDTypeAtStep t = DType.float32) ∧
    cStoreDType = DType.float16 := by
  refine ⟨by decide, by decide, ?_, rfl⟩
  intro t
  induction t with
  | zero => rfl
  | succ t ih => rw [show accDTypeAtStep (t + 1) =
      dotAccDType (accDTypeAtStep t) from rfl, ih]; rfl

/-- Witness for C8 at the fp8 input type. -/
theorem accumulation_precision_discipline_witness :
    DType.float8 ∈ inputDTypes ∧
      dtypeWidth DType.float8 ≤ dtypeWidth accInitDType :=
  ⟨by decide, accumulation_precision_discipline.1 DType.float8 (by decide)⟩

/-! Memoization of the autotuner cache (modelled from the spec). -/

theorem select_hit (bench : ℕ × ℕ × ℕ → Config) (st : Autotuner)
    (key : ℕ × ℕ × ℕ) (cfg : Config)
    (h : cacheLookup st.cache key = some cfg) :
    autotuneSelect bench st key = (cfg, st) := by
  unfold autotuneSelect
  rw [h]

theorem select_caches (bench : ℕ × ℕ × ℕ → Config) (st : Autotuner)
    (key : ℕ × ℕ × ℕ) :
    cacheLookup (autotuneSelect bench st key).2.cache key =
      some (autotuneSelect bench st key).1 := by
  unfold autotuneSelect
  rcases hl : cacheLookup st.cache key with _ | c
  · show cacheLookup ((key, bench key) :: st.cache) key = some (bench key)
    unfold cacheLookup
    rw [if_pos rfl]
  · exact hl

theorem cacheLookup_select_preserved (bench : ℕ × ℕ × ℕ → Config)
    (st : Autotuner) (key key' : ℕ × ℕ × ℕ) (cfg : Config)
    (h : cacheLookup st.cache key = some cfg) :
    cacheLookup (autotuneSelect bench st key').2.cache key = some cfg := by
  unfold autotuneSelect
  rcases hl : cacheLookup st.cache key' with _ | c
  · show cacheLookup ((key', bench key') :: st.cache) key = some cfg
    have hne : ¬ key' = key := by
      intro e
      rw [e, h] at hl
      exact Option.noConfusion hl
    unfold cacheLookup
    rw [if_neg hne]
    exact h
  · exact h

theorem runCalls_preserves (bench : ℕ × ℕ × ℕ → Config) :
    ∀ (ks : List (ℕ × ℕ × ℕ)) (st : Autotuner) (key : ℕ × ℕ × ℕ)
      (cfg : Config), cacheLookup st.cache key = some cfg →
      cacheLookup (runCalls bench st ks).cache key = some cfg := by
  intro ks
  induction ks with
  | nil => intro st key cfg h; exact h
  | cons k t ih =>
    intro st key cfg h
    rw [show runCalls bench st (k :: t) =
        runCalls bench (autotuneSelect bench st k).2 t from rfl]
    exact ih _ _ _ (cacheLookup_select_preserved bench st key k cfg h)

/-- C9: once a configuration has been chosen for a shape key — whether it was
already cached or determined by the first call's benchmarking sweep — every
later call with the same key, after any interleaved calls on arbitrary other
keys, returns that identical configuration with no state change and no new
benchmarking sweep (the sweep counter is untouched). -/
theorem autotuner_memoization (bench : ℕ × ℕ × ℕ → Config) (st : Autotuner)
    (key : ℕ × ℕ × ℕ) (ks : List (ℕ × ℕ × ℕ)) :
    autotuneSelect bench
        (runCalls bench (autotuneSelect bench st key).2 ks) key =
      ((autotuneSelect bench st key).1,
        runCalls bench (autotuneSelect bench st key).2 ks) ∧
    (autotuneSelect bench
        (runCalls bench (autotuneSelect bench st key).2 ks) key).2.benchCount =
      (runCalls bench (autotuneSelect bench st key).2 ks).benchCount := by
  have h := select_hit bench
    (runCalls bench (autotuneSelect bench st key).2 ks) key
    (autotuneSelect bench st key).1
    (runCalls_preserves bench ks _ key _ (select_caches bench st key))
  exact ⟨h, by rw [h]⟩

/-- C10: whatever the element types of A and B (fp16 or fp8), a successful
wrapper call allocates the output as a float16 tensor of shape (M, N) — the
output storage type is fixed, not inherited from the inputs. -/
theorem matmul_output_always_float16 (cfg : Config) (a b : TensorDesc)
    (act : String) (L : LaunchRecord) (h : matmul cfg a b act = .ok L) :
    L.out_dtype = DType.float16 ∧ L.out_rows = a.rows ∧
      L.out_cols = b.cols := by
  unfold matmul at h
  by_cases h1 : a.cols ≠ b.rows
  · rw [if_pos h1] at h
    exact absurd h (by simp)
  · rw [if_neg h1] at h
    by_cases h2 : a.contiguous = false
    · rw [if_pos h2] at h
      exact absurd h (by simp)
    · rw [if_neg h2] at h
      injection h with h3
      subst h3
      exact ⟨rfl, rfl, rfl⟩

/-- Witness for C10 with fp8 inputs: the allocated output is still
float16. -/
theorem matmul_output_always_float16_witness :
    matmul ⟨1, 1, 1, 1, 0, 0⟩ ⟨2, 3, DType.float8, true⟩
        ⟨3, 5, DType.float8, true⟩ "" =
      .ok ⟨2, 5, DType.float16, cdiv 2 1 * cdiv 5 1⟩ ∧
    (⟨2, 5, DType.float16, cdiv 2 1 * cdiv 5 1⟩ : LaunchRecord).out_dtype =
        DType.float16 ∧
      (⟨2, 5, DType.float16, cdiv 2 1 * cdiv 5 1⟩ : LaunchRecord).out_rows =
        (⟨2, 3, DType.float8, true⟩ : TensorDesc).rows ∧
      (⟨2, 5, DType.float16, cdiv 2 1 * cdiv 5 1⟩ : LaunchRecord).out_cols =
        (⟨3, 5, DType.float8, true⟩ : TensorDesc).cols :=
  ⟨by rfl,
    matmul_output_always_float16 ⟨1, 1, 1, 1, 0, 0⟩
      ⟨2, 3, DType.float8, true⟩ ⟨3, 5, DType.float8, true⟩ ""
      ⟨2, 5, DType.float16, cdiv 2 1 * cdiv 5 1⟩ (by rfl)⟩
